import Mathlib

/-!
Verification development for the NearEarthObjects repository.

The Python sources are shallowly embedded: pure functions become Lean
functions; in-place mutation performed by the store constructor is modelled
by explicit functional state (the final value of each mutated field);
operations that can raise a Python exception return values in Except or
Option, with the error constructor standing for the raised exception.
Python floats that carry exact decimal data in these claims are modelled
as rationals; Python None is modelled as Option.none.
-/

/-- Python list indexing semantics: a nonnegative index is used directly,
a negative index counts from the end of the list, and anything out of
range is an IndexError (modelled as none). -/
def pyIdx (len : Nat) (i : Int) : Option Nat :=
  if 0 ≤ i then (if i < (len : Int) then some i.toNat else none)
  else if -i ≤ (len : Int) then some (len - (-i).toNat) else none

/-- Reading a Python list at an Int index, with Python semantics for
negative indices and IndexError (none) when out of range. -/
def pyGet {α : Type} (l : List α) (i : Int) : Option α :=
  match pyIdx l.length i with
  | some j => l[j]?
  | none => none

/-- Embedding of database.py binarySearch: recursive binary search over a
sorted collection, returning the index of the value if found and -1
otherwise. The left/right bounds are Python ints; an out-of-range list
access inside the search is an IndexError, modelled by the none result. -/
def binarySearch {α : Type} [LinearOrder α] (arr : List α) (left right : Int)
    (search : α) : Option Int :=
  if _h : left ≤ right then
    match pyGet arr (left + (right - left) / 2) with
    | none => none
    | some v =>
      if v = search then some (left + (right - left) / 2)
      else if v > search then
        binarySearch arr left (left + (right - left) / 2 - 1) search
      else
        binarySearch arr (left + (right - left) / 2 + 1) right search
  else
    some (-1)
termination_by (right + 1 - left).toNat
decreasing_by
  all_goals omega

lemma pyIdx_nonneg {len : Nat} {i : Int} (h0 : 0 ≤ i) (h1 : i < (len : Int)) :
    pyIdx len i = some i.toNat := by
  simp [pyIdx, h0, h1]

lemma pyGet_of_nonneg {α : Type} {l : List α} {i : Int} (h0 : 0 ≤ i)
    (h1 : i < (l.length : Int)) :
    ∃ a, pyGet l i = some a ∧ l[i.toNat]? = some a := by
  have hi : i.toNat < l.length := by omega
  refine ⟨l.get ⟨i.toNat, hi⟩, ?_, ?_⟩ <;>
    simp [pyGet, pyIdx_nonneg h0 h1, List.getElem?_eq_some_iff, hi]

/-- When called on in-range bounds, binarySearch never raises, and any
index it returns other than -1 holds the searched value. Sortedness is
not needed for this soundness direction. -/
lemma binarySearch_sound {α : Type} [LinearOrder α] (arr : List α) (search : α)
    (left right : Int) (h0 : 0 ≤ left) (h1 : right < (arr.length : Int)) :
    binarySearch arr left right search = some (-1) ∨
    ∃ n : Nat, binarySearch arr left right search = some (n : Int) ∧
      arr[n]? = some search := by
  rw [binarySearch.eq_def]
  split
  · next hlr =>
    have hmid0 : 0 ≤ left + (right - left) / 2 := by omega
    have hmid1 : left + (right - left) / 2 < (arr.length : Int) := by omega
    obtain ⟨v, hv, hv2⟩ := pyGet_of_nonneg hmid0 hmid1
    rw [hv]
    by_cases hveq : v = search
    · right
      refine ⟨(left + (right - left) / 2).toNat, by simp [hveq, hmid0], ?_⟩
      rw [hveq] at hv2
      exact hv2
    · by_cases hvgt : v > search
      · simpa [hveq, hvgt] using
          binarySearch_sound arr search left (left + (right - left) / 2 - 1)
            h0 (by omega)
      · simpa [hveq, hvgt] using
          binarySearch_sound arr search (left + (right - left) / 2 + 1) right
            (by omega) h1
  · left
    rfl
termination_by (right + 1 - left).toNat
decreasing_by
  all_goals omega

/-- If the value is absent from the whole list then binarySearch on
in-range bounds returns -1 (and in particular does not raise). -/
lemma binarySearch_not_mem {α : Type} [LinearOrder α] (arr : List α)
    (search : α) (left right : Int) (h0 : 0 ≤ left)
    (h1 : right < (arr.length : Int)) (habs : search ∉ arr) :
    binarySearch arr left right search = some (-1) := by
  rcases binarySearch_sound arr search left right h0 h1 with h | ⟨n, _, hn⟩
  · exact h
  · exact absurd (List.getElem?_mem hn) habs

/-- On a strictly sorted list, binarySearch over bounds that bracket an
occurrence of the value returns exactly the index of that occurrence. -/
lemma binarySearch_found {α : Type} [LinearOrder α] (arr : List α)
    (search : α) (hsort : arr.Sorted (· < ·)) (left right : Int) (k : Nat)
    (h0 : 0 ≤ left) (h1 : right < (arr.length : Int))
    (hkl : left ≤ (k : Int)) (hkr : (k : Int) ≤ right)
    (hk : arr[k]? = some search) :
    binarySearch arr left right search = some (k : Int) := by
  have hklen : k < arr.length := by omega
  have hkget : arr.get ⟨k, hklen⟩ = search := by
    have := (List.getElem?_eq_some_iff).mp hk
    obtain ⟨h, hh⟩ := this
    simpa using hh
  rw [binarySearch.eq_def]
  have hlr : left ≤ right := le_trans hkl hkr
  rw [dif_pos hlr]
  have hmid0 : 0 ≤ left + (right - left) / 2 := by omega
  have hmid1 : left + (right - left) / 2 < (arr.length : Int) := by omega
  obtain ⟨v, hv, hv2⟩ := pyGet_of_nonneg hmid0 hmid1
  rw [hv]
  have hmlen : (left + (right - left) / 2).toNat < arr.length := by omega
  have hvget : arr.get ⟨(left + (right - left) / 2).toNat, hmlen⟩ = v := by
    have := (List.getElem?_eq_some_iff).mp hv2
    obtain ⟨h, hh⟩ := this
    simpa using hh
  dsimp only
  by_cases hveq : v = search
  · rw [if_pos hveq]
    have heqidx : k = (left + (right - left) / 2).toNat := by
      by_contra hne
      rcases Nat.lt_or_ge k (left + (right - left) / 2).toNat with hlt | hge
      · have := hsort.rel_get_of_lt
          (a := ⟨k, hklen⟩) (b := ⟨(left + (right - left) / 2).toNat, hmlen⟩)
          (by simpa using hlt)
        rw [hkget, hvget, hveq] at this
        exact lt_irrefl search this
      · have hlt2 : (left + (right - left) / 2).toNat < k := by omega
        have := hsort.rel_get_of_lt
          (a := ⟨(left + (right - left) / 2).toNat, hmlen⟩) (b := ⟨k, hklen⟩)
          (by simpa using hlt2)
        rw [hkget, hvget, hveq] at this
        exact lt_irrefl search this
    rw [heqidx]
    congr 1
    omega
  · rw [if_neg hveq]
    by_cases hvgt : v > search
    · rw [if_pos hvgt]
      have hklt : k < (left + (right - left) / 2).toNat := by
        by_contra hge
        push_neg at hge
        rcases Nat.eq_or_lt_of_le hge with heq | hlt
        · have hsame : arr.get ⟨(left + (right - left) / 2).toNat, hmlen⟩ =
              arr.get ⟨k, hklen⟩ := congrArg arr.get (Fin.ext heq)
          rw [hvget, hkget] at hsame
          exact hveq hsame
        · have := hsort.rel_get_of_lt
            (a := ⟨(left + (right - left) / 2).toNat, hmlen⟩) (b := ⟨k, hklen⟩)
            (by simpa using hlt)
          rw [hkget, hvget] at this
          exact absurd hvgt (not_lt_of_lt this)
      exact binarySearch_found arr search hsort left
        (left + (right - left) / 2 - 1) k h0 (by omega) hkl (by omega) hk
    · rw [if_neg hvgt]
      have hvlt : v < search := by
        rcases lt_trichotomy v search with h | h | h
        · exact h
        · exact absurd h hveq
        · exact absurd h hvgt
      have hklt : (left + (right - left) / 2).toNat < k := by
        by_contra hge
        push_neg at hge
        rcases Nat.eq_or_lt_of_le hge with heq | hlt
        · have hsame : arr.get ⟨(left + (right - left) / 2).toNat, hmlen⟩ =
              arr.get ⟨k, hklen⟩ := congrArg arr.get (Fin.ext heq.symm)
          rw [hvget, hkget] at hsame
          exact hveq hsame
        · have := hsort.rel_get_of_lt
            (a := ⟨k, hklen⟩) (b := ⟨(left + (right - left) / 2).toNat, hmlen⟩)
            (by simpa using hlt)
          rw [hkget, hvget] at this
          exact absurd hvlt (not_lt_of_lt this)
      exact binarySearch_found arr search hsort
        (left + (right - left) / 2 + 1) right k (by omega) h1 (by omega) hkr hk
termination_by (right + 1 - left).toNat
decreasing_by
  all_goals omega

/-- Calendar date as used by Python datetime.date: lexicographic order on
(year, month, day). -/
structure Date where
  year : Nat
  month : Nat
  day : Nat
deriving DecidableEq

/-- Python datetime as needed here: a calendar date plus a time of day.
The date method of a datetime discards the time of day, which is exactly
the projection to the date field. -/
structure PyDateTime where
  date : Date
  hour : Nat
  minute : Nat
deriving DecidableEq

/-- Embedding of models.py NearEarthObject after its constructor ran: a
designation string, a full name, an optional IAU name (None is modelled
as Option.none), an optional diameter (the NaN sentinel for an unknown
diameter is modelled as Option.none), and the hazardous flag. The
approaches list mutated in by NEODatabase.__init__ is modelled separately
as a function of the construction inputs. -/
structure NearEarthObject where
  designation : String
  full_name : String
  name : Option String
  diameter : Option ℚ
  hazardous : Bool
deriving DecidableEq

/-- Embedding of models.py CloseApproach after its constructor ran: the
approach datetime, distance, velocity, the neo reference (None until the
database links it), and the private attribute holding the raw designation
string. -/
structure CloseApproach where
  time : PyDateTime
  distance : ℚ
  velocity : ℚ
  neo : Option NearEarthObject
  _designation : String
deriving DecidableEq

/-- The sort performed by NEODatabase.__init__ on its copied neos list:
Python list.sort with key designation, a stable sort by the designation
strings. -/
def sortByDesignation (neos : List NearEarthObject) : List NearEarthObject :=
  neos.mergeSort (fun a b => decide (a.designation ≤ b.designation))

/-- The neo_designations parallel array built by NEODatabase.__init__:
the designations of the sorted neos, in the same order. -/
def neo_designations (neos : List NearEarthObject) : List String :=
  (sortByDesignation neos).map (fun neo => neo.designation)

/-- The list position at which the linking loop of NEODatabase.__init__
attaches one approach: the binarySearch result is used directly as a
Python index into the sorted neos list, so a -1 miss silently indexes the
last element. The error value models an uncaught IndexError. -/
def link_index (neos : List NearEarthObject) (approach : CloseApproach) :
    Except Unit Nat :=
  match binarySearch (neo_designations neos) 0
      (((neo_designations neos).length : Int) - 1) approach._designation with
  | none => Except.error ()
  | some r =>
    match pyIdx (sortByDesignation neos).length r with
    | none => Except.error ()
    | some j => Except.ok j

/-- The neo object assigned to approach.neo by the linking loop. -/
def link_neo (neos : List NearEarthObject) (approach : CloseApproach) :
    Except Unit NearEarthObject :=
  match link_index neos approach with
  | Except.error e => Except.error e
  | Except.ok j =>
    match (sortByDesignation neos)[j]? with
    | none => Except.error ()
    | some o => Except.ok o

/-- One iteration of the linking loop, producing the final state of the
approach record: its neo field set to the object found by the search. -/
def linkApproach (neos : List NearEarthObject) (approach : CloseApproach) :
    Except Unit CloseApproach :=
  match link_neo neos approach with
  | Except.error e => Except.error e
  | Except.ok o => Except.ok { approach with neo := some o }

/-- The linking pass of NEODatabase.__init__ over the whole approaches
collection, in input order, stopping at the first uncaught exception.
Returns the final state of every approach record. -/
def neodatabase_init (neos : List NearEarthObject) :
    List CloseApproach → Except Unit (List CloseApproach)
  | [] => Except.ok []
  | a :: rest =>
    match linkApproach neos a with
    | Except.error e => Except.error e
    | Except.ok a2 =>
      match neodatabase_init neos rest with
      | Except.error e => Except.error e
      | Except.ok l => Except.ok (a2 :: l)

/-- The final approaches list of the neo stored at position j of the
sorted list: every approach whose link step appended it there, in input
order, in its final (linked) state. -/
def approaches_of (neos : List NearEarthObject) (approaches : List CloseApproach)
    (j : Nat) : List CloseApproach :=
  approaches.filterMap (fun a =>
    match link_index neos a with
    | Except.error _ => none
    | Except.ok i =>
      if i = j then
        match (sortByDesignation neos)[i]? with
        | none => none
        | some o => some { a with neo := some o }
      else none)

/-- Embedding of NEODatabase.get_neo_by_designation: binary search over
the designation array with right bound len - 1; on index -1 the method
falls through and returns None. -/
def get_neo_by_designation (neos : List NearEarthObject) (designation : String) :
    Except Unit (Option NearEarthObject) :=
  match binarySearch (neo_designations neos) 0
      (((neo_designations neos).length : Int) - 1) designation with
  | none => Except.error ()
  | some neoIndex =>
    if neoIndex ≠ -1 then
      match pyGet (sortByDesignation neos) neoIndex with
      | none => Except.error ()
      | some o => Except.ok (some o)
    else Except.ok none

/-- One step of the loop building the _neos_named dict: an object with a
non-None, non-empty name is written into the dict under its name,
overwriting any earlier entry with the same name. -/
def namedStep (d : String → Option NearEarthObject) (neo : NearEarthObject) :
    String → Option NearEarthObject :=
  match neo.name with
  | some nm => if nm ≠ "" then (fun k => if k = nm then some neo else d k) else d
  | none => d

/-- The _neos_named dict built by NEODatabase.__init__, iterating the
input neos collection in input order. Modelled as its lookup function;
a missing key is none. -/
def neos_named (neos : List NearEarthObject) : String → Option NearEarthObject :=
  neos.foldl namedStep (fun _ => none)

/-- Embedding of NEODatabase.get_neo_by_name: an explicit guard returns
None for a None or empty-string argument; otherwise a dict lookup whose
KeyError is caught and turned into None. -/
def get_neo_by_name (neos : List NearEarthObject) (name : Option String) :
    Option NearEarthObject :=
  match name with
  | none => none
  | some nm => if nm = "" then none else neos_named neos nm

/-- The inner loop of NEODatabase.query on one approach: filters are
evaluated in the order given and the loop breaks at the first filter
returning false. -/
def passesAll (filters : List (CloseApproach → Bool))
    (approach : CloseApproach) : Bool :=
  match filters with
  | [] => true
  | f :: rest => if f approach then passesAll rest approach else false

/-- Embedding of NEODatabase.query: iterate the stored approaches in
order and yield each approach passing all filters. The lazy generator is
modelled by the list of yielded values in order. -/
def query (approaches : List CloseApproach)
    (filters : List (CloseApproach → Bool)) : List CloseApproach :=
  match approaches with
  | [] => []
  | a :: rest =>
    if passesAll filters a then a :: query rest filters
    else query rest filters

/-- The comparison operators used by filters.py: operator.eq,
operator.le, operator.ge. -/
inductive CmpOp where
  | opEq : CmpOp
  | opLe : CmpOp
  | opGe : CmpOp
deriving DecidableEq

/-- Applying a comparison operator over a linearly ordered attribute
type, as operator.eq / operator.le / operator.ge do. -/
def applyCmp {α : Type} [LinearOrder α] : CmpOp → α → α → Bool
  | CmpOp.opEq, x, v => decide (x = v)
  | CmpOp.opLe, x, v => decide (x ≤ v)
  | CmpOp.opGe, x, v => decide (v ≤ x)

/-- Python date comparison: lexicographic on (year, month, day). -/
def dateLe (a b : Date) : Bool :=
  decide (a.year < b.year ∨ (a.year = b.year ∧ (a.month < b.month ∨
    (a.month = b.month ∧ a.day ≤ b.day))))

/-- Applying a comparison operator to two dates. -/
def applyDateCmp : CmpOp → Date → Date → Bool
  | CmpOp.opEq, x, v => decide (x = v)
  | CmpOp.opLe, x, v => dateLe x v
  | CmpOp.opGe, x, v => dateLe v x

/-- The attribute accessor of filters.py DateFilter: the date method of
the approach time, discarding the time of day. -/
def DateFilter_get (approach : CloseApproach) : Date :=
  approach.time.date

/-- AttributeFilter.__call__ specialised to DateFilter: compare the
extracted calendar date against the reference value with the stored
operator. -/
def DateFilter_call (op : CmpOp) (value : Date) (approach : CloseApproach) :
    Bool :=
  applyDateCmp op (DateFilter_get approach) value

/-- The closed family of concrete filters produced by create_filters,
one variant per AttributeFilter subclass, each pairing an operator with a
reference value. -/
inductive Filt where
  | distanceFilter : CmpOp → ℚ → Filt
  | dateFilter : CmpOp → Date → Filt
  | velocityFilter : CmpOp → ℚ → Filt
  | diameterFilter : CmpOp → ℚ → Filt
  | hazardFilter : CmpOp → Bool → Filt
deriving DecidableEq

/-- DistanceFilter.validateDist: float conversion of an already numeric
value; the value itself is unchanged. -/
def validateDist (val : ℚ) : ℚ := val

/-- Embedding of filters.py create_filters. Each optional criterion is
tested with Python truthiness: for a numeric bound, None and zero are
both falsy and produce no filter; a date object is truthy whenever
present; the hazardous criterion alone is tested with an explicit
"is not None" three-state check. The filters are appended in source
order. -/
def create_filters (date start_date end_date : Option Date)
    (distance_min distance_max velocity_min velocity_max
      diameter_min diameter_max : Option ℚ)
    (hazardous : Option Bool) : List Filt :=
  (match distance_min with
   | some v => if v ≠ 0 then [Filt.distanceFilter CmpOp.opGe (validateDist v)] else []
   | none => []) ++
  (match distance_max with
   | some v => if v ≠ 0 then [Filt.distanceFilter CmpOp.opLe (validateDist v)] else []
   | none => []) ++
  (match date with
   | some d => [Filt.dateFilter CmpOp.opEq d]
   | none => []) ++
  (match start_date with
   | some d => [Filt.dateFilter CmpOp.opGe d]
   | none => []) ++
  (match end_date with
   | some d => [Filt.dateFilter CmpOp.opLe d]
   | none => []) ++
  (match velocity_min with
   | some v => if v ≠ 0 then [Filt.velocityFilter CmpOp.opGe v] else []
   | none => []) ++
  (match velocity_max with
   | some v => if v ≠ 0 then [Filt.velocityFilter CmpOp.opLe v] else []
   | none => []) ++
  (match diameter_min with
   | some v => if v ≠ 0 then [Filt.diameterFilter CmpOp.opGe v] else []
   | none => []) ++
  (match diameter_max with
   | some v => if v ≠ 0 then [Filt.diameterFilter CmpOp.opLe v] else []
   | none => []) ++
  (match hazardous with
   | some b => [Filt.hazardFilter CmpOp.opEq b]
   | none => [])

/-- Embedding of filters.py limit over a finite iterator: an n equal to
the int 0 is first replaced by None, then islice(iterator, 0, n) yields
everything when n is None and the first n items otherwise. -/
def limit {α : Type} (iterator : List α) (n : Option Nat) : List α :=
  match (if n = some 0 then none else n) with
  | none => iterator
  | some m => iterator.take m

/-- Embedding of the models.py CloseApproach.designation property getter:
its body returns self.designation, which re-invokes the same property, so
every unfolding step recurses with no base case. The Nat argument is the
remaining recursion depth; none models that no depth suffices to produce
a value. -/
def designation_property_get (approach : CloseApproach) : Nat → Option String
  | 0 => none
  | fuel + 1 => designation_property_get approach fuel

/-- Embedding of the models.py CloseApproach.designation property setter:
its body assigns self.designation, which re-invokes the same setter, so
it also recurses with no base case. A value would be the final state of
the approach record. -/
def designation_property_set (approach : CloseApproach) (des : String) :
    Nat → Option CloseApproach
  | 0 => none
  | fuel + 1 => designation_property_set approach des fuel

/-- Embedding of the models.py CloseApproach.temp_designation property:
it returns the private _designation attribute directly. -/
def temp_designation (approach : CloseApproach) : String :=
  approach._designation

lemma sortByDesignation_perm (neos : List NearEarthObject) :
    List.Perm (sortByDesignation neos) neos :=
  List.mergeSort_perm neos _

lemma sortByDesignation_pairwise (neos : List NearEarthObject) :
    (sortByDesignation neos).Pairwise
      (fun a b => a.designation ≤ b.designation) := by
  have h := @List.sorted_mergeSort NearEarthObject
    (fun a b : NearEarthObject => decide (a.designation ≤ b.designation))
    (fun a b c hab hbc => by
      simp only [decide_eq_true_eq] at hab hbc ⊢
      exact le_trans hab hbc)
    (fun a b => by
      simp only [Bool.or_eq_true, decide_eq_true_eq]
      exact le_total a.designation b.designation)
    neos
  exact h.imp (fun hab => by simpa using hab)

lemma neo_designations_nodup (neos : List NearEarthObject)
    (hnodup : (neos.map (fun o => o.designation)).Nodup) :
    (neo_designations neos).Nodup := by
  have hperm : List.Perm ((sortByDesignation neos).map (fun o => o.designation))
      (neos.map (fun o => o.designation)) :=
    (sortByDesignation_perm neos).map _
  exact hperm.nodup_iff.mpr hnodup

lemma neo_designations_sorted (neos : List NearEarthObject)
    (hnodup : (neos.map (fun o => o.designation)).Nodup) :
    (neo_designations neos).Sorted (· < ·) := by
  have hle := sortByDesignation_pairwise neos
  have hne : (sortByDesignation neos).Pairwise
      (fun a b => a.designation ≠ b.designation) := by
    have := neo_designations_nodup neos hnodup
    exact (List.pairwise_map).mp this
  refine (List.pairwise_map).mpr ?_
  exact (hle.and hne).imp (fun hab => lt_of_le_of_ne hab.1 hab.2)

lemma sortByDesignation_nodup (neos : List NearEarthObject)
    (hnodup : (neos.map (fun o => o.designation)).Nodup) :
    (sortByDesignation neos).Nodup :=
  List.Nodup.of_map _ (neo_designations_nodup neos hnodup)

/-- On a store with unique designations, the linking step of an approach
whose designation matches the object o resolves exactly to the sorted
position of o. -/
lemma link_index_of_match (neos : List NearEarthObject)
    (hnodup : (neos.map (fun o => o.designation)).Nodup)
    (a : CloseApproach) (o : NearEarthObject) (ho : o ∈ neos)
    (hd : o.designation = a._designation) :
    ∃ j : Nat, link_index neos a = Except.ok j ∧
      (sortByDesignation neos)[j]? = some o := by
  have hos : o ∈ sortByDesignation neos := (sortByDesignation_perm neos).mem_iff.mpr ho
  obtain ⟨k, hk⟩ := List.getElem?_of_mem hos
  have hklen : k < (sortByDesignation neos).length :=
    ((List.getElem?_eq_some_iff).mp hk).1
  have hdes : (neo_designations neos)[k]? = some a._designation := by
    simp only [neo_designations, List.getElem?_map, hk]
    simp [hd]
  have hlen : (neo_designations neos).length = (sortByDesignation neos).length :=
    List.length_map _ _
  have hbs : binarySearch (neo_designations neos) 0
      (((neo_designations neos).length : Int) - 1) a._designation = some (k : Int) :=
    binarySearch_found (neo_designations neos) a._designation
      (neo_designations_sorted neos hnodup) 0
      (((neo_designations neos).length : Int) - 1) k (le_refl 0)
      (by omega) (by omega) (by omega) hdes
  refine ⟨k, ?_, hk⟩
  simp only [link_index, hbs]
  rw [pyIdx_nonneg (by omega) (by omega)]
  simp

lemma link_neo_of_match (neos : List NearEarthObject)
    (hnodup : (neos.map (fun o => o.designation)).Nodup)
    (a : CloseApproach) (o : NearEarthObject) (ho : o ∈ neos)
    (hd : o.designation = a._designation) :
    link_neo neos a = Except.ok o := by
  obtain ⟨j, hj, hjo⟩ := link_index_of_match neos hnodup a o ho hd
  simp only [link_neo, hj, hjo]

lemma linkApproach_of_match (neos : List NearEarthObject)
    (hnodup : (neos.map (fun o => o.designation)).Nodup)
    (a : CloseApproach) (o : NearEarthObject) (ho : o ∈ neos)
    (hd : o.designation = a._designation) :
    linkApproach neos a = Except.ok { a with neo := some o } := by
  simp only [linkApproach, link_neo_of_match neos hnodup a o ho hd]

lemma neodatabase_init_ok (neos : List NearEarthObject)
    (approaches : List CloseApproach)
    (hnodup : (neos.map (fun o => o.designation)).Nodup)
    (hmatch : ∀ a ∈ approaches, ∃ o ∈ neos, o.designation = a._designation) :
    ∃ l : List CloseApproach, neodatabase_init neos approaches = Except.ok l := by
  induction approaches with
  | nil => exact ⟨[], rfl⟩
  | cons a rest ih =>
    obtain ⟨o, ho, hd⟩ := hmatch a (List.mem_cons_self a rest)
    obtain ⟨l, hl⟩ := ih (fun x hx => hmatch x (List.mem_cons_of_mem a hx))
    refine ⟨{ a with neo := some o } :: l, ?_⟩
    simp only [neodatabase_init, linkApproach_of_match neos hnodup a o ho hd, hl]

/-- Characterization of the final approaches list of the object at
sorted position j, when designations are unique and every approach
matches some object: exactly the matching approaches, in input order, in
their final linked state. -/
lemma approaches_of_eq (neos : List NearEarthObject)
    (approaches : List CloseApproach)
    (hnodup : (neos.map (fun o => o.designation)).Nodup)
    (hmatch : ∀ a ∈ approaches, ∃ o ∈ neos, o.designation = a._designation)
    (o : NearEarthObject) (ho : o ∈ neos) (j : Nat)
    (hj : (sortByDesignation neos)[j]? = some o) :
    approaches_of neos approaches j =
      (approaches.filter (fun a => decide (a._designation = o.designation))).map
        (fun a => { a with neo := some o }) := by
  induction approaches with
  | nil => rfl
  | cons a rest ih =>
    obtain ⟨o2, ho2, hd2⟩ := hmatch a (List.mem_cons_self a rest)
    obtain ⟨k, hk, hko⟩ := link_index_of_match neos hnodup a o2 ho2 hd2
    have htail := ih (fun x hx => hmatch x (List.mem_cons_of_mem a hx))
    by_cases had : a._designation = o.designation
    · have ho2o : o2 = o := by
        apply List.inj_on_of_nodup_map hnodup ho2 ho
        rw [hd2, had]
      subst ho2o
      have hkj : k = j := by
        apply List.getElem?_inj (((List.getElem?_eq_some_iff).mp hko).1)
          (sortByDesignation_nodup neos hnodup)
        rw [hko, hj]
      subst hkj
      simp only [approaches_of] at htail ⊢
      rw [List.filterMap_cons, hk]
      simp [hko, htail, List.filter_cons, had]
    · have hkj : k ≠ j := by
        intro hkj
        subst hkj
        rw [hko] at hj
        have ho2o : o2 = o := by injection hj
        exact had (ho2o ▸ hd2.symm)
      simp only [approaches_of] at htail ⊢
      rw [List.filterMap_cons, hk]
      simp [hkj, htail, List.filter_cons, had]

/-- C3: for every store built from objects with unique designations,
get_neo_by_designation returns the unique matching object when one exists
in the input, and returns None (without raising) when no object has the
requested designation. -/
theorem get_neo_by_designation_correct (neos : List NearEarthObject)
    (hnodup : (neos.map (fun o => o.designation)).Nodup) (d : String) :
    ((∃ o ∈ neos, o.designation = d) →
      ∃ o, get_neo_by_designation neos d = Except.ok (some o) ∧ o ∈ neos ∧
        o.designation = d) ∧
    ((∀ o ∈ neos, o.designation ≠ d) →
      get_neo_by_designation neos d = Except.ok none) := by
  constructor
  · rintro ⟨o, ho, hd⟩
    refine ⟨o, ?_, ho, hd⟩
    have hos : o ∈ sortByDesignation neos :=
      (sortByDesignation_perm neos).mem_iff.mpr ho
    obtain ⟨k, hk⟩ := List.getElem?_of_mem hos
    have hklen : k < (sortByDesignation neos).length :=
      ((List.getElem?_eq_some_iff).mp hk).1
    have hdes : (neo_designations neos)[k]? = some d := by
      simp only [neo_designations, List.getElem?_map, hk]
      simp [hd]
    have hlen : (neo_designations neos).length = (sortByDesignation neos).length :=
      List.length_map _ _
    have hbs : binarySearch (neo_designations neos) 0
        (((neo_designations neos).length : Int) - 1) d = some (k : Int) :=
      binarySearch_found (neo_designations neos) d
        (neo_designations_sorted neos hnodup) 0
        (((neo_designations neos).length : Int) - 1) k (le_refl 0)
        (by omega) (by omega) (by omega) hdes
    have hne : ((k : Int) ≠ -1) := by omega
    have hpg : pyGet (sortByDesignation neos) (k : Int) = some o := by
      simp only [pyGet, pyIdx_nonneg (by omega : (0 : Int) ≤ (k : Int))
        (by omega : (k : Int) < ((sortByDesignation neos).length : Int))]
      simpa using hk
    simp [get_neo_by_designation, hbs, hne, hpg]
  · intro habs
    have hmem : d ∉ neo_designations neos := by
      intro hmem
      obtain ⟨o, ho, hdo⟩ := List.mem_map.mp hmem
      exact habs o ((sortByDesignation_perm neos).mem_iff.mp ho) hdo
    have hbs := binarySearch_not_mem (neo_designations neos) d 0
      (((neo_designations neos).length : Int) - 1) (le_refl 0) (by omega) hmem
    simp [get_neo_by_designation, hbs]

def erosNeo : NearEarthObject :=
  { designation := "433", full_name := "433 Eros (A898 PA)", name := some "Eros",
    diameter := some 16, hazardous := false }

def apophisNeo : NearEarthObject :=
  { designation := "99942", full_name := "99942 Apophis (2004 MN4)",
    name := some "Apophis", diameter := some 1, hazardous := true }

theorem get_neo_by_designation_correct_witness :
    (([erosNeo, apophisNeo].map (fun o => o.designation)).Nodup) ∧
    (((∃ o ∈ [erosNeo, apophisNeo], o.designation = "433") →
      ∃ o, get_neo_by_designation [erosNeo, apophisNeo] "433" =
          Except.ok (some o) ∧ o ∈ [erosNeo, apophisNeo] ∧
        o.designation = "433") ∧
    ((∀ o ∈ [erosNeo, apophisNeo], o.designation ≠ "433") →
      get_neo_by_designation [erosNeo, apophisNeo] "433" = Except.ok none)) :=
  ⟨by decide, get_neo_by_designation_correct [erosNeo, apophisNeo] (by decide) "433"⟩

/-- C2: after construction from objects with unique designations and
approaches that all match, every approach's neo reference is the object
with its designation, construction succeeds, and each object's approaches
list is exactly the matching approaches in input order, containing each
matching approach exactly once. -/
theorem init_links_bidirectional (neos : List NearEarthObject)
    (approaches : List CloseApproach)
    (hnodup : (neos.map (fun o => o.designation)).Nodup)
    (hmatch : ∀ a ∈ approaches, ∃ o ∈ neos, o.designation = a._designation) :
    (∀ a ∈ approaches, ∀ o ∈ neos, o.designation = a._designation →
      link_neo neos a = Except.ok o ∧
      linkApproach neos a = Except.ok { a with neo := some o }) ∧
    (∃ l : List CloseApproach,
      neodatabase_init neos approaches = Except.ok l) ∧
    (∀ o ∈ neos, ∀ j : Nat, (sortByDesignation neos)[j]? = some o →
      approaches_of neos approaches j =
        (approaches.filter
          (fun a => decide (a._designation = o.designation))).map
          (fun a => { a with neo := some o })) ∧
    (approaches.Nodup → (∀ a ∈ approaches, a.neo = none) →
      ∀ a ∈ approaches, ∀ o ∈ neos, o.designation = a._designation →
      ∀ j : Nat, (sortByDesignation neos)[j]? = some o →
      (approaches_of neos approaches j).count { a with neo := some o } = 1) := by
  refine ⟨?_, neodatabase_init_ok neos approaches hnodup hmatch, ?_, ?_⟩
  · intro a _ o ho hd
    exact ⟨link_neo_of_match neos hnodup a o ho hd,
      linkApproach_of_match neos hnodup a o ho hd⟩
  · intro o ho j hj
    exact approaches_of_eq neos approaches hnodup hmatch o ho j hj
  · intro hnodupA hneo a ha o ho hd j hj
    rw [approaches_of_eq neos approaches hnodup hmatch o ho j hj]
    have haf : a ∈ approaches.filter
        (fun a => decide (a._designation = o.designation)) := by
      rw [List.mem_filter]
      exact ⟨ha, by simp [hd.symm]⟩
    have hfnodup : (approaches.filter
        (fun a => decide (a._designation = o.designation))).Nodup :=
      hnodupA.filter _
    have hmapnodup : ((approaches.filter
        (fun a => decide (a._designation = o.designation))).map
        (fun a => { a with neo := some o })).Nodup := by
      apply hfnodup.map_on
      intro x hx y hy hxy
      have hxn : x.neo = none :=
        hneo x (List.mem_of_mem_filter hx)
      have hyn : y.neo = none :=
        hneo y (List.mem_of_mem_filter hy)
      cases x
      cases y
      simp only [CloseApproach.mk.injEq] at hxy ⊢
      simp only at hxn hyn
      exact ⟨hxy.1, hxy.2.1, hxy.2.2.1, hxn.trans hyn.symm, hxy.2.2.2.2⟩
    apply List.count_eq_one_of_mem hmapnodup
    exact List.mem_map_of_mem _ haf

def approach433 : CloseApproach :=
  CloseApproach.mk (PyDateTime.mk (Date.mk 2020 1 1) 3 15) (1/10) 5 none "433"

def approach99942 : CloseApproach :=
  CloseApproach.mk (PyDateTime.mk (Date.mk 2020 6 1) 12 0) (1/50) 30 none "99942"

theorem init_links_bidirectional_witness :
    (([erosNeo, apophisNeo].map (fun o => o.designation)).Nodup ∧
      (∀ a ∈ [approach433, approach99942], ∃ o ∈ [erosNeo, apophisNeo],
        o.designation = a._designation)) ∧
    ((∀ a ∈ [approach433, approach99942], ∀ o ∈ [erosNeo, apophisNeo],
      o.designation = a._designation →
      link_neo [erosNeo, apophisNeo] a = Except.ok o ∧
      linkApproach [erosNeo, apophisNeo] a =
        Except.ok { a with neo := some o }) ∧
    (∃ l : List CloseApproach,
      neodatabase_init [erosNeo, apophisNeo] [approach433, approach99942] =
        Except.ok l) ∧
    (∀ o ∈ [erosNeo, apophisNeo], ∀ j : Nat,
      (sortByDesignation [erosNeo, apophisNeo])[j]? = some o →
      approaches_of [erosNeo, apophisNeo] [approach433, approach99942] j =
        (([approach433, approach99942]).filter
          (fun a => decide (a._designation = o.designation))).map
          (fun a => { a with neo := some o })) ∧
    (([approach433, approach99942] : List CloseApproach).Nodup →
      (∀ a ∈ [approach433, approach99942], a.neo = none) →
      ∀ a ∈ [approach433, approach99942], ∀ o ∈ [erosNeo, apophisNeo],
      o.designation = a._designation →
      ∀ j : Nat, (sortByDesignation [erosNeo, apophisNeo])[j]? = some o →
      (approaches_of [erosNeo, apophisNeo] [approach433, approach99942] j).count
        { a with neo := some o } = 1)) :=
  ⟨⟨by decide, by decide⟩,
    init_links_bidirectional [erosNeo, apophisNeo] [approach433, approach99942]
      (by decide) (by decide)⟩

def soloNeo : NearEarthObject :=
  NearEarthObject.mk "A" "A full name" none none false

def orphanApproach : CloseApproach :=
  CloseApproach.mk (PyDateTime.mk (Date.mk 2021 3 4) 0 0) 1 1 none "B"

/-- C1, evaluated at a failing input: an approach whose designation
matches no object does not make construction fail when the object
collection is non-empty. The binarySearch miss result -1 is used directly
as a Python index, so the approach is silently linked to the last element
of the sorted object list, an object with a different designation, and is
appended to that object's approaches list. -/
theorem unmatched_approach_silently_mislinked :
    neodatabase_init [soloNeo] [orphanApproach] =
      Except.ok [{ orphanApproach with neo := some soloNeo }] ∧
    soloNeo.designation ≠ orphanApproach._designation ∧
    approaches_of [soloNeo] [orphanApproach] 0 =
      [{ orphanApproach with neo := some soloNeo }] := by
  have hsort : sortByDesignation [soloNeo] = [soloNeo] := by
    simp [sortByDesignation]
  have hdes : neo_designations [soloNeo] = ["A"] := by
    rw [neo_designations, hsort]
    simp [soloNeo]
  have hbs : binarySearch ["A"] 0 0 "B" = some (-1) := by
    simp [binarySearch.eq_def, pyGet, pyIdx, gt_iff_lt]
  have hli : link_index [soloNeo] orphanApproach = Except.ok 0 := by
    simp [link_index, hdes, orphanApproach, hbs, pyIdx, hsort]
  have hln : link_neo [soloNeo] orphanApproach = Except.ok soloNeo := by
    simp [link_neo, hli, hsort]
  refine ⟨?_, by decide, ?_⟩
  · simp [neodatabase_init, linkApproach, hln]
  · simp [approaches_of, hli, hsort]

lemma passesAll_eq_all (filters : List (CloseApproach → Bool))
    (a : CloseApproach) :
    passesAll filters a = filters.all (fun f => f a) := by
  induction filters with
  | nil => rfl
  | cons f fs ih =>
    simp only [passesAll, List.all_cons]
    cases hf : f a <;> simp [ih]

/-- C4: query yields exactly the subsequence of approaches passing every
filter, in input order; the inner loop is a short-circuit conjunction
evaluated in filter order; with no filters every approach is yielded
unchanged. -/
theorem query_yields_filtered (approaches : List CloseApproach)
    (filters : List (CloseApproach → Bool)) :
    query approaches filters =
      approaches.filter (fun a => filters.all (fun f => f a)) ∧
    query approaches [] = approaches ∧
    (∀ (f : CloseApproach → Bool) (fs : List (CloseApproach → Bool))
      (a : CloseApproach), passesAll (f :: fs) a = (f a && passesAll fs a)) := by
  refine ⟨?_, ?_, ?_⟩
  · induction approaches with
    | nil => rfl
    | cons a rest ih =>
      simp only [query, List.filter_cons, passesAll_eq_all]
      cases h : (filters.all fun f => f a) <;> simp [ih, h]
  · induction approaches with
    | nil => rfl
    | cons a rest ih => simp [query, passesAll, ih]
  · intro f fs a
    cases hf : f a <;> simp [passesAll, hf]

lemma namedStep_other (acc : String → Option NearEarthObject)
    (o : NearEarthObject) (s : String) (ho : o.name ≠ some s) :
    namedStep acc o s = acc s := by
  unfold namedStep
  cases hn : o.name with
  | none => rfl
  | some nm =>
    by_cases hne : nm = ""
    · simp [hne]
    · simp only [hne, ne_eq, not_false_iff, if_true]
      rw [if_neg]
      intro hsnm
      exact ho (by rw [hn, hsnm])

lemma namedStep_empty (acc : String → Option NearEarthObject)
    (o : NearEarthObject) :
    namedStep acc o "" = acc "" := by
  unfold namedStep
  cases hn : o.name with
  | none => rfl
  | some nm =>
    by_cases hne : nm = ""
    · simp [hne]
    · simp only [hne, ne_eq, not_false_iff, if_true]
      rw [if_neg]
      intro hsnm
      exact hne hsnm.symm

lemma neos_named_loop (neos : List NearEarthObject)
    (acc : String → Option NearEarthObject) (s : String) (hs : s ≠ "") :
    neos.foldl namedStep acc s =
      match (neos.filter (fun o => decide (o.name = some s))).getLast? with
      | some o => some o
      | none => acc s := by
  induction neos generalizing acc with
  | nil => rfl
  | cons o rest ih =>
    rw [List.foldl_cons, ih]
    by_cases ho : o.name = some s
    · rw [List.filter_cons, if_pos (by simpa using ho)]
      rcases hfr : rest.filter (fun o => decide (o.name = some s)) with _ | ⟨b, t⟩
      · have hstep : namedStep acc o s = some o := by
          unfold namedStep
          rw [ho]
          simp [hs]
        simp [hfr, hstep]
      · cases hgl : (b :: t).getLast? with
        | none => simp at hgl
        | some x => simp [hfr, hgl]
    · rw [List.filter_cons, if_neg (by simpa using ho)]
      rw [namedStep_other acc o s ho]

lemma foldl_namedStep_empty (neos : List NearEarthObject)
    (acc : String → Option NearEarthObject) :
    neos.foldl namedStep acc "" = acc "" := by
  induction neos generalizing acc with
  | nil => rfl
  | cons o rest ih => rw [List.foldl_cons, ih, namedStep_empty]

/-- Full characterization of the _neos_named dict lookup: the empty
string is never a key, and any other key maps to the last object in input
order whose name equals it. -/
lemma neos_named_eq (neos : List NearEarthObject) (s : String) :
    neos_named neos s = if s = "" then none
      else (neos.filter (fun o => decide (o.name = some s))).getLast? := by
  by_cases hs : s = ""
  · rw [if_pos hs, hs]
    exact foldl_namedStep_empty neos _
  · rw [if_neg hs, neos_named, neos_named_loop neos _ s hs]
    cases hgl : (neos.filter (fun o => decide (o.name = some s))).getLast? <;>
      simp [hgl]

/-- C6: the name lookup contains exactly the objects with a non-None,
non-empty name, and on a duplicated name the object encountered last in
input order wins, both in the dict itself and through get_neo_by_name. -/
theorem name_index_last_write_wins (neos : List NearEarthObject) (s : String) :
    (neos_named neos s = if s = "" then none
      else (neos.filter (fun o => decide (o.name = some s))).getLast?) ∧
    (∀ o, neos_named neos s = some o → o ∈ neos ∧ o.name = some s ∧ s ≠ "") ∧
    (get_neo_by_name neos (some s) = if s = "" then none
      else (neos.filter (fun o => decide (o.name = some s))).getLast?) := by
  refine ⟨neos_named_eq neos s, ?_, ?_⟩
  · intro o hsome
    rw [neos_named_eq neos s] at hsome
    by_cases hs : s = ""
    · rw [if_pos hs] at hsome
      exact absurd hsome (by simp)
    · rw [if_neg hs] at hsome
      have hmem := List.mem_of_getLast?_eq_some hsome
      rw [List.mem_filter] at hmem
      exact ⟨hmem.1, by simpa using hmem.2, hs⟩
  · by_cases hs : s = ""
    · simp [get_neo_by_name, hs]
    · rw [get_neo_by_name]
      rw [if_neg hs, if_neg hs, neos_named_eq neos s, if_neg hs]

def namedTwinOne : NearEarthObject :=
  NearEarthObject.mk "100" "100 first twin" (some "Twin") none false

def namedTwinTwo : NearEarthObject :=
  NearEarthObject.mk "200" "200 second twin" (some "Twin") none true

theorem name_index_last_write_wins_witness :
    (neos_named [namedTwinOne, namedTwinTwo] "Twin" =
      if ("Twin" : String) = "" then none
      else (([namedTwinOne, namedTwinTwo]).filter
        (fun o => decide (o.name = some "Twin"))).getLast?) ∧
    (∀ o, neos_named [namedTwinOne, namedTwinTwo] "Twin" = some o →
      o ∈ [namedTwinOne, namedTwinTwo] ∧ o.name = some "Twin" ∧
      ("Twin" : String) ≠ "") ∧
    (get_neo_by_name [namedTwinOne, namedTwinTwo] (some "Twin") =
      if ("Twin" : String) = "" then none
      else (([namedTwinOne, namedTwinTwo]).filter
        (fun o => decide (o.name = some "Twin"))).getLast?) :=
  name_index_last_write_wins [namedTwinOne, namedTwinTwo] "Twin"

/-- C7: get_neo_by_name returns None for a None or empty-string argument
regardless of the store contents, and returns None rather than raising on
any lookup miss. -/
theorem get_neo_by_name_guard (neos : List NearEarthObject) :
    get_neo_by_name neos none = none ∧
    get_neo_by_name neos (some "") = none ∧
    (∀ s : String, (∀ o ∈ neos, o.name ≠ some s) →
      get_neo_by_name neos (some s) = none) := by
  refine ⟨rfl, by simp [get_neo_by_name], ?_⟩
  intro s habs
  by_cases hs : s = ""
  · simp [get_neo_by_name, hs]
  · rw [get_neo_by_name]
    rw [if_neg hs, neos_named_eq neos s, if_neg hs]
    have hfilter : neos.filter (fun o => decide (o.name = some s)) = [] := by
      rw [List.filter_eq_nil_iff]
      intro o ho
      simpa using habs o ho
    rw [hfilter]
    rfl

theorem get_neo_by_name_guard_witness :
    (get_neo_by_name [namedTwinOne] none = none ∧
    get_neo_by_name [namedTwinOne] (some "") = none ∧
    (∀ s : String, (∀ o ∈ [namedTwinOne], o.name ≠ some s) →
      get_neo_by_name [namedTwinOne] (some s) = none)) ∧
    ((∀ o ∈ [namedTwinOne], o.name ≠ some "Eros") ∧
      get_neo_by_name [namedTwinOne] (some "Eros") = none) :=
  ⟨get_neo_by_name_guard [namedTwinOne],
    by decide,
    (get_neo_by_name_guard [namedTwinOne]).2.2 "Eros" (by decide)⟩

/-- C5: a numeric bound criterion supplied as zero is treated exactly as
not supplied (Python falsy zero), whereas the hazardous criterion uses a
three-state is-not-None check: None yields no hazard filter while an
explicit false yields an equality filter with reference value false. -/
theorem create_filters_zero_vs_hazard (date start_date end_date : Option Date)
    (dmin dmax vmin vmax dimin dimax : Option ℚ) (hz : Option Bool) :
    create_filters date start_date end_date (some 0) dmax vmin vmax dimin
        dimax hz =
      create_filters date start_date end_date none dmax vmin vmax dimin
        dimax hz ∧
    create_filters date start_date end_date dmin (some 0) vmin vmax dimin
        dimax hz =
      create_filters date start_date end_date dmin none vmin vmax dimin
        dimax hz ∧
    create_filters date start_date end_date dmin dmax (some 0) vmax dimin
        dimax hz =
      create_filters date start_date end_date dmin dmax none vmax dimin
        dimax hz ∧
    create_filters date start_date end_date dmin dmax vmin (some 0) dimin
        dimax hz =
      create_filters date start_date end_date dmin dmax vmin none dimin
        dimax hz ∧
    create_filters date start_date end_date dmin dmax vmin vmax (some 0)
        dimax hz =
      create_filters date start_date end_date dmin dmax vmin vmax none
        dimax hz ∧
    create_filters date start_date end_date dmin dmax vmin vmax dimin
        (some 0) hz =
      create_filters date start_date end_date dmin dmax vmin vmax dimin
        none hz ∧
    Filt.hazardFilter CmpOp.opEq false ∈
      create_filters date start_date end_date dmin dmax vmin vmax dimin
        dimax (some false) ∧
    (∀ (op : CmpOp) (b : Bool), Filt.hazardFilter op b ∉
      create_filters date start_date end_date dmin dmax vmin vmax dimin
        dimax none) := by
  refine ⟨by simp [create_filters], by simp [create_filters],
    by simp [create_filters], by simp [create_filters],
    by simp [create_filters], by simp [create_filters],
    by simp [create_filters], ?_⟩
  intro op b hmem
  simp only [create_filters, List.mem_append] at hmem
  rcases hmem with ((((((((h | h) | h) | h) | h) | h) | h) | h) | h) | h
  · rcases dmin with _ | v <;> simp at h
  · rcases dmax with _ | v <;> simp at h
  · rcases date with _ | v <;> simp at h
  · rcases start_date with _ | v <;> simp at h
  · rcases end_date with _ | v <;> simp at h
  · rcases vmin with _ | v <;> simp at h
  · rcases vmax with _ | v <;> simp at h
  · rcases dimin with _ | v <;> simp at h
  · rcases dimax with _ | v <;> simp at h
  · simp at h

theorem query_yields_filtered_witness :
    (query [approach433] [fun _ => true] =
      [approach433].filter (fun a => ([fun _ => true] :
        List (CloseApproach → Bool)).all (fun f => f a))) ∧
    (query [approach433] [] = [approach433]) ∧
    (∀ (f : CloseApproach → Bool) (fs : List (CloseApproach → Bool))
      (a : CloseApproach), passesAll (f :: fs) a = (f a && passesAll fs a)) :=
  query_yields_filtered [approach433] [fun _ => true]

theorem create_filters_zero_vs_hazard_witness :
    create_filters none none none (some 0) none none none none none none =
      create_filters none none none none none none none none none none ∧
    create_filters none none none none (some 0) none none none none none =
      create_filters none none none none none none none none none none ∧
    create_filters none none none none none (some 0) none none none none =
      create_filters none none none none none none none none none none ∧
    create_filters none none none none none none (some 0) none none none =
      create_filters none none none none none none none none none none ∧
    create_filters none none none none none none none (some 0) none none =
      create_filters none none none none none none none none none none ∧
    create_filters none none none none none none none none (some 0) none =
      create_filters none none none none none none none none none none ∧
    Filt.hazardFilter CmpOp.opEq false ∈
      create_filters none none none none none none none none none
        (some false) ∧
    (∀ (op : CmpOp) (b : Bool), Filt.hazardFilter op b ∉
      create_filters none none none none none none none none none none) :=
  create_filters_zero_vs_hazard none none none none none none none none
    none none

def approachJan1Morning : CloseApproach :=
  CloseApproach.mk (PyDateTime.mk (Date.mk 2020 1 1) 3 15) 1 1 none "X1"

def approachDec31Night : CloseApproach :=
  CloseApproach.mk (PyDateTime.mk (Date.mk 2019 12 31) 23 59) 1 1 none "X2"

def approachJan2Midnight : CloseApproach :=
  CloseApproach.mk (PyDateTime.mk (Date.mk 2020 1 2) 0 0) 1 1 none "X3"

/-- C8: a date filter compares only the calendar-date portion of the
approach time, discarding the time of day; with the equality operator
and reference date 2020-01-01 it accepts 2020-01-01T03:15 and rejects
2019-12-31T23:59 and 2020-01-02T00:00. -/
theorem date_filter_compares_date_only :
    (∀ (a b : CloseApproach), a.time.date = b.time.date →
      ∀ (op : CmpOp) (v : Date),
        DateFilter_call op v a = DateFilter_call op v b) ∧
    DateFilter_call CmpOp.opEq (Date.mk 2020 1 1) approachJan1Morning = true ∧
    DateFilter_call CmpOp.opEq (Date.mk 2020 1 1) approachDec31Night = false ∧
    DateFilter_call CmpOp.opEq (Date.mk 2020 1 1) approachJan2Midnight =
      false := by
  refine ⟨?_, by decide, by decide, by decide⟩
  intro a b hab op v
  simp [DateFilter_call, DateFilter_get, hab]

theorem date_filter_compares_date_only_witness :
    (approachJan1Morning.time.date =
      (CloseApproach.mk (PyDateTime.mk (Date.mk 2020 1 1) 22 45) 2 3 none
        "X4").time.date) ∧
    (∀ (op : CmpOp) (v : Date),
      DateFilter_call op v approachJan1Morning =
      DateFilter_call op v (CloseApproach.mk
        (PyDateTime.mk (Date.mk 2020 1 1) 22 45) 2 3 none "X4")) :=
  ⟨by decide, date_filter_compares_date_only.1 approachJan1Morning
    (CloseApproach.mk (PyDateTime.mk (Date.mk 2020 1 1) 22 45) 2 3 none "X4")
    (by decide)⟩

/-- C9: accessing the CloseApproach.designation property, by read or by
assignment, never returns: the getter and setter both re-invoke the same
property with no base case, so no recursion depth produces a value; the
pre-linking designation remains reachable through temp_designation, which
returns the private _designation attribute directly. -/
theorem designation_property_diverges :
    (∀ (a : CloseApproach) (fuel : Nat),
      designation_property_get a fuel = none) ∧
    (∀ (a : CloseApproach) (des : String) (fuel : Nat),
      designation_property_set a des fuel = none) ∧
    (∀ a : CloseApproach, temp_designation a = a._designation) := by
  refine ⟨?_, ?_, fun a => rfl⟩
  · intro a fuel
    induction fuel with
    | zero => rfl
    | succ n ih => simpa [designation_property_get] using ih
  · intro a des fuel
    induction fuel with
    | zero => rfl
    | succ n ih => simpa [designation_property_set] using ih

/-- C10: limit with n = 0 yields every item of the iterator (zero is
treated as no limit, exactly like None), and with n > 0 it yields the
first min(n, length) items in order. -/
theorem limit_zero_means_no_limit {α : Type} (xs : List α) :
    limit xs (some 0) = xs ∧
    limit xs none = xs ∧
    (∀ n : Nat, 0 < n → limit xs (some n) = xs.take n ∧
      (limit xs (some n)).length = min n xs.length) := by
  refine ⟨rfl, rfl, ?_⟩
  intro n hn
  have hn0 : n ≠ 0 := by omega
  constructor
  · simp [limit, hn0]
  · simp [limit, hn0, List.length_take]

theorem limit_zero_means_no_limit_witness :
    (0 < 2) ∧ (limit [10, 20, 30] (some 2) = ([10, 20, 30] : List Nat).take 2 ∧
      (limit [10, 20, 30] (some 2)).length =
        min 2 ([10, 20, 30] : List Nat).length) :=
  ⟨by decide, (limit_zero_means_no_limit [10, 20, 30]).2.2 2 (by decide)⟩
